import Mathlib

/-!
Verification development for `finddupes.py`: a shallow embedding of the
duplicate-file indexer (persistent index operations, duplicate grouper,
original selector, batch flushing and the interrupt handler), together with
theorems settling the specification's claims about it.

Machine conventions of the embedding:
* timestamps (`datetime` values) are abstracted as `Nat`;
* the SQLite `files` table is a `List FileRecord` in rowid order; the spec's
  FileRecord fields are `(hash, path, size, lastModified, lastChecked)` — the
  AUTOINCREMENT `id` column is not part of the data model;
* an exogenous SQLite error while executing one row of a batch is modelled by
  a predicate `fails : FileData → Bool` handed to `insert_data_batch`; the
  control flow around it (stop at the first error, log, close the connection,
  which rolls back the uncommitted transaction) is translated from the source;
* Python strings are Lean `String`s; `str.startswith` is char-list prefix;
  SQLite `path LIKE '<dir>%'` is modelled with full `LIKE` pattern semantics:
  the directory is spliced into the pattern unescaped, so `_` and `%` inside
  it keep their wildcard meaning, and comparison of ordinary characters is
  ASCII-case-insensitive.
-/

namespace FindDupes

/-- Python `file.startswith(directory)`: code-point prefix test
(`select_original`, line 398 of the source). -/
def startswith (d f : String) : Bool := d.data.isPrefixOf f.data

/-- ASCII lower-casing of one character, as SQLite's default `LIKE`
collation applies to the ASCII range. -/
def asciiLower (c : Char) : Char :=
  if 65 ≤ c.toNat ∧ c.toNat ≤ 90 then Char.ofNat (c.toNat + 32) else c

/-- SQLite `LIKE` matching of a whole character list against a pattern (no
`ESCAPE` clause): `%` matches any sequence of zero or more characters, `_`
matches exactly one character, and any other pattern character matches
ASCII-case-insensitively. -/
def sqlLike : List Char → List Char → Bool
  | [] => fun cs => cs.isEmpty
  | '%' :: ps => fun cs => cs.tails.any (fun cs2 => sqlLike ps cs2)
  | '_' :: ps => fun cs =>
    match cs with
    | [] => false
    | _ :: cs2 => sqlLike ps cs2
  | pc :: ps => fun cs =>
    match cs with
    | [] => false
    | c :: cs2 => (asciiLower pc == asciiLower c) && sqlLike ps cs2

/-- SQLite `path LIKE ?` bound to `f'{w}%'` (`get_duplicates`,
lines 331-337): the directory string is spliced into the pattern unescaped,
so `_`/`%` inside it keep their wildcard meaning. -/
def likeMatch (w p : String) : Bool :=
  sqlLike (w.data ++ ['%']) p.data

/-- Split a character list at `'/'` (helper for `PurePath(...).parts`). -/
def slashSplit : List Char → List (List Char)
  | [] => [[]]
  | c :: cs =>
    if c = '/' then [] :: slashSplit cs
    else
      match slashSplit cs with
      | [] => [[c]]
      | p :: ps => (c :: p) :: ps

/-- `PurePath(file).parts` for a POSIX path: non-empty components, preceded by
a root component when the path is absolute (`select_original`, line 422). -/
def pathParts (f : String) : List (List Char) :=
  let comps := (slashSplit f.data).filter (fun p => ¬ p.isEmpty)
  match f.data with
  | '/' :: _ => ['/'] :: comps
  | _ => comps

/-- `len(PurePath(file).parts) - 1`: the number of folders of a path
(`select_original`, line 423). -/
def numFolders (f : String) : Nat := (pathParts f).length - 1

/-- The 4-tuple produced by hashing one file:
`(file_hash, file_path, size, last_modified)`. -/
structure FileData where
  hash : String
  path : String
  size : Nat
  lastModified : Nat
deriving Repr, DecidableEq

/-- One row of the `files` table, without the surrogate `id` column:
the spec's FileRecord. -/
structure FileRecord where
  hash : String
  path : String
  size : Nat
  lastModified : Nat
  lastChecked : Nat
deriving Repr, DecidableEq

/-- The row written for data `d` at time `t` (`last_checked = now`). -/
def mkRecord (t : Nat) (d : FileData) : FileRecord :=
  ⟨d.hash, d.path, d.size, d.lastModified, t⟩

/-- The scan-determined content of a row: every field except `lastChecked`. -/
def content (r : FileRecord) : FileData :=
  ⟨r.hash, r.path, r.size, r.lastModified⟩

/-- `SELECT ... FROM files WHERE path = ?` with `fetchone()`: the first row in
rowid order whose path matches. -/
def lookup (db : List FileRecord) (p : String) : Option FileRecord :=
  db.find? (fun r => r.path = p)

/-- The `UPDATE files SET hash = ?, size = ?, last_modified = ?,
last_checked = ? WHERE id = ?` of `insert_data` (lines 200-204): the row at
the id fetched for the path — the first row with that path — is updated in
place, its position and path unchanged. -/
def updateFirst (t : Nat) (d : FileData) : List FileRecord → List FileRecord
  | [] => []
  | r :: rs =>
    if r.path = d.path then
      { r with hash := d.hash, size := d.size,
               lastModified := d.lastModified, lastChecked := t } :: rs
    else r :: updateFirst t d rs

/-- `insert_data` (lines 183-221): select the existing row by path; update it
in place when present, otherwise insert a fresh row at the end. -/
def insert_data (t : Nat) (db : List FileRecord) (d : FileData) : List FileRecord :=
  match db.find? (fun r => r.path = d.path) with
  | some _ => updateFirst t d db
  | none => db ++ [mkRecord t d]

/-- `INSERT OR REPLACE` of one row (line 234): any row conflicting on the
UNIQUE `path` column is deleted and the new row is inserted with a fresh id
(at the end of rowid order). -/
def replaceRow (t : Nat) (db : List FileRecord) (d : FileData) : List FileRecord :=
  db.filter (fun r => ¬ r.path = d.path) ++ [mkRecord t d]

/-- `cursor.executemany` over the batch (line 239): rows are executed in
order inside one implicit transaction; the first row that raises stops the
execution and reports failure. Returns the uncommitted table state and a
success flag. -/
def executemanyRows (fails : FileData → Bool) (t : Nat) :
    List FileRecord → List FileData → List FileRecord × Bool
  | db, [] => (db, true)
  | db, d :: ds =>
    if fails d then (db, false)
    else executemanyRows fails t (replaceRow t db d) ds

/-- `insert_data_batch` (lines 223-247): run `executemany`; on success the
`conn.commit()` makes the new state durable; on an error the `except` clause
logs and the `finally` clause closes the connection, rolling the uncommitted
transaction back to the state before the call. -/
def insert_data_batch (fails : FileData → Bool) (t : Nat)
    (db : List FileRecord) (ds : List FileData) : List FileRecord :=
  let r := executemanyRows fails t db ds
  if r.2 then r.1 else db

/-- The failure pattern of an error-free batch write. -/
def noFail : FileData → Bool := fun _ => false

/-- `DELETE FROM files WHERE path = ?` (line 690): removal of one path's
record, as `remove_missing_files` issues per confirmed-absent path. -/
def removeByPath (db : List FileRecord) (p : String) : List FileRecord :=
  db.filter (fun r => ¬ r.path = p)

/-- Python `min` over a non-empty list of naturals (`min(dict.keys())`,
lines 427 and 444): fold of `Nat.min` over the elements. -/
def minNat : List Nat → Nat
  | [] => 0
  | x :: xs => xs.foldl Nat.min x

/-- The bucket of the minimal key: `files_by_folders`/`files_by_path_length`
dictionaries keep insertion order, so the bucket selected by
`min(keys())` is the sublist of entries attaining the minimal key
(lines 420-428 and 438-445). -/
def minValFilter (key : String → Nat) (l : List String) : List String :=
  l.filter (fun f => key f = minNat (l.map key))

/-- Code-point lexicographic comparison of character lists: the order Python
uses to compare strings. -/
def charsLe : List Char → List Char → Bool
  | [], _ => true
  | _ :: _, [] => false
  | a :: as, b :: bs =>
    if a.toNat < b.toNat then true
    else if b.toNat < a.toNat then false
    else charsLe as bs

/-- Python string comparison `a <= b`: code-point lexicographic order. -/
def strLe (a b : String) : Bool := charsLe a.data b.data

/-- `strLe` as a relation, for use with the sorting library. -/
def strLeR (a b : String) : Prop := strLe a b = true

instance : DecidableRel strLeR := fun a b =>
  inferInstanceAs (Decidable (strLe a b = true))

/-- Python `sorted` on strings (line 455): sort ascending by code-point
lexicographic order. -/
def sortStrs (l : List String) : List String :=
  l.insertionSort strLeR

/-- The preferred-directory scan of `select_original` (lines 392-404): walk
the directory list in caller order, collect the members whose path starts
with the directory string, and stop at the first directory that collected at
least one member. -/
def firstMatchFiles (files : List String) : List String → List String
  | [] => []
  | d :: ds =>
    let m := files.filter (fun f => startswith d f)
    if m.isEmpty then firstMatchFiles files ds else m

/-- The tie-break cascade of `select_original` on a candidate list
(lines 416-460): the fewest-folders bucket wins when it is a singleton;
otherwise its shortest-path-length bucket wins when a singleton; otherwise
the first candidate in alphabetical order wins. -/
def tieBreak (cands : List String) : String :=
  if (minValFilter numFolders cands).length = 1 then
    (minValFilter numFolders cands).headD ""
  else if (minValFilter String.length (minValFilter numFolders cands)).length = 1 then
    (minValFilter String.length (minValFilter numFolders cands)).headD ""
  else
    (sortStrs (minValFilter String.length (minValFilter numFolders cands))).headD ""

/-- The `preferred_directory_files` list right after the directory scan
(lines 392-404): empty when no preferred list was supplied. -/
def prefFiles (files : List String) : Option (List String) → List String
  | none => []
  | some ds => firstMatchFiles files ds

/-- The candidate list the tie-break cascade runs on: the preferred-directory
matches, or — when none were found — `files.copy()` (lines 412-414). -/
def selCands (files : List String) (preferred : Option (List String)) : List String :=
  if (prefFiles files preferred).isEmpty then files else prefFiles files preferred

/-- `select_original(files, preferred_source_directories)` (lines 380-460).
A single preferred-directory match is returned as the original outright
(lines 406-410); otherwise the tie-break cascade runs on the candidates.
The first component is the returned original. The second component is the
state of the caller's `files` list when the function returns: every return
path first executes `files.remove(original)` — removing the first occurrence
of the original in place — and returns that same list object as the
duplicates, so the returned duplicates and the post-call argument coincide. -/
def select_original (files : List String) (preferred : Option (List String)) :
    String × List String :=
  if (prefFiles files preferred).length = 1 then
    ((prefFiles files preferred).headD "",
      files.erase ((prefFiles files preferred).headD ""))
  else
    (tieBreak (selCands files preferred),
      files.erase (tieBreak (selCands files preferred)))

/-- One duplicate group as assembled by `get_duplicates` (lines 369-374). -/
structure Group where
  hash : String
  original : String
  duplicates : List String
  no_matching_original : Bool
deriving Repr, DecidableEq

/-- The row set a `get_duplicates` query ranges over: all rows, or — given a
`within_directory` (already passed through `normpath(abspath(...))`) — the
rows whose path matches `LIKE '<w>%'` (lines 329-345). -/
def scope (db : List FileRecord) : Option String → List FileRecord
  | none => db
  | some w => db.filter (fun r => likeMatch w r.path)

/-- The rows returned by the duplicate query: rows of the scope whose hash is
held by at least two rows of the scope (`HAVING COUNT(*) > 1`). -/
def dupRows (db : List FileRecord) (w : Option String) : List FileRecord :=
  (scope db w).filter
    (fun r => 2 ≤ ((scope db w).filter (fun r2 => r2.hash = r.hash)).length)

/-- First-occurrence deduplication: the key order of the `files_by_hash`
dictionary (Python dictionaries preserve insertion order). -/
def dedupFirst : List String → List String
  | [] => []
  | h :: t => h :: (dedupFirst t).filter (fun x => ¬ x = h)

/-- The distinct hashes of a row list in first-encounter order
(`files_by_hash.keys()`; the source iterates `set(...)` of them, whose order
is unspecified — the theorems below are order-insensitive). -/
def hashesOf (rows : List FileRecord) : List String :=
  dedupFirst (rows.map (fun r => r.hash))

/-- The scoped path list of one hash (the `files_by_hash[file_hash]` entry,
in row order). -/
def rowsOf (db : List FileRecord) (w : Option String) (h : String) : List String :=
  ((scope db w).filter (fun r => r.hash = h)).map (fun r => r.path)

/-- The `files_by_hash[file_hash]` entry: the duplicate-query paths of one
hash, in row order (lines 349-351, 363). -/
def groupFiles (db : List FileRecord) (w : Option String) (h : String) : List String :=
  ((dupRows db w).filter (fun r => r.hash = h)).map (fun r => r.path)

/-- The group dictionary `get_duplicates` builds for one hash
(lines 361-374): run `select_original` on the hash's path list; the
`no_matching_original` key is the literal `False` (line 373). -/
def groupForHash (db : List FileRecord) (dirs : Option (List String))
    (w : Option String) (h : String) : Group :=
  { hash := h,
    original := (select_original (groupFiles db w h) dirs).1,
    duplicates := (select_original (groupFiles db w h) dirs).2,
    no_matching_original := false }

/-- `get_duplicates` (lines 314-377): group the duplicate-query rows by hash
and emit one dictionary per distinct hash. The loop at lines 356-358 only
executes `continue` and is a no-op. -/
def get_duplicates (db : List FileRecord) (dirs : Option (List String))
    (w : Option String) : List Group :=
  (hashesOf (dupRows db w)).map (groupForHash db dirs w)

/-- The batch loop of `main` (lines 769-785): per batch, worker threads fill
the batch-local `batch_processed_data` list; after the join, a non-empty
batch is flushed with `insert_data_batch`. `batches` holds each batch's
aggregated results; the `datetime.now()` stamped at each flush is abstracted
as one timestamp `t` per run. -/
def main_run (t : Nat) (db : List FileRecord)
    (batches : List (List FileData)) : List FileRecord :=
  batches.foldl
    (fun acc b => if b.isEmpty then acc else insert_data_batch noFail t acc b) db

/-- The process state seen by the interrupt handler: the database and the
module-global `processed_data` list (line 15). -/
structure ProcState where
  db : List FileRecord
  processed_data : List FileData

/-- `signal_handler` (lines 19-23): on SIGINT, flush the global
`processed_data` list — when non-empty — and exit. -/
def signal_handler (t : Nat) (st : ProcState) : List FileRecord :=
  if st.processed_data.isEmpty then st.db
  else insert_data_batch noFail t st.db st.processed_data

/-- A `process` run cancelled after `k` complete batches, with `inflight`
results already aggregated for the current batch. The global
`processed_data` is appended to only by `worker_thread` (line 170), which
`main` never calls: `main`'s threads run `process_file_wrapper`
(lines 775, 790-793), which appends to the batch-local
`batch_processed_data`. The handler therefore always observes
`processed_data = []` in a `process` run, whatever `inflight` holds. -/
def main_cancelled (t : Nat) (db : List FileRecord)
    (batches : List (List FileData)) (k : Nat) (inflight : List FileData) :
    List FileRecord :=
  let _ := inflight
  signal_handler t ⟨main_run t db (batches.take k), []⟩

/-- Modelled from the spec: a path located directly in, or nested under, a
directory — the matching criterion the claims state for preferred
directories and subtree restriction (the source nowhere implements a
path-boundary check; this definition exists to compare against it). -/
def underDir (d f : String) : Bool :=
  ((d ++ "/").data.isPrefixOf f.data) || f == d

/-- Modelled from the spec: the preferred-directory scan as the claim words
it, with membership meaning located directly in or nested under the
directory rather than the source's string prefix. -/
def firstMatchFilesClaim (files : List String) : List String → List String
  | [] => []
  | d :: ds =>
    let m := files.filter (fun f => underDir d f)
    if m.isEmpty then firstMatchFilesClaim files ds else m

/-- Modelled from the spec: `select_original` as the claim words it,
differing from the source only in the member-matching criterion. -/
def select_original_claim (files : List String) (preferred : Option (List String)) :
    String × List String :=
  let pref := match preferred with
    | none => []
    | some ds => firstMatchFilesClaim files ds
  if pref.length = 1 then
    (pref.headD "", files.erase (pref.headD ""))
  else
    let cands := if pref.isEmpty then files else pref
    let orig := tieBreak cands
    (orig, files.erase orig)

/-- One index-mutating operation: `insert_data`, `insert_data_batch` (with
its exogenous failure pattern), or a by-path deletion. -/
inductive Op where
  | one (t : Nat) (d : FileData)
  | batch (t : Nat) (fails : FileData → Bool) (ds : List FileData)
  | remove (p : String)

/-- Apply one operation to the table. -/
def applyOp (db : List FileRecord) : Op → List FileRecord
  | Op.one t d => insert_data t db d
  | Op.batch t fails ds => insert_data_batch fails t db ds
  | Op.remove p => removeByPath db p

/-- The path-uniqueness invariant: no two rows share a path. -/
def pathsNodup (db : List FileRecord) : Prop :=
  (db.map (fun r => r.path)).Nodup

/-! ### The code-point string order is a total order -/

theorem charsLe_total : ∀ as bs : List Char, charsLe as bs = true ∨ charsLe bs as = true
  | [], [] => Or.inl rfl
  | [], _ :: _ => Or.inl rfl
  | _ :: _, [] => Or.inr rfl
  | a :: as, b :: bs => by
    simp only [charsLe]
    rcases Nat.lt_trichotomy a.toNat b.toNat with h | h | h
    · exact Or.inl (by rw [if_pos h])
    · rw [if_neg (by omega), if_neg (by omega), if_neg (by omega), if_neg (by omega)]
      exact charsLe_total as bs
    · exact Or.inr (by rw [if_pos h])

theorem charsLe_trans : ∀ as bs cs : List Char,
    charsLe as bs = true → charsLe bs cs = true → charsLe as cs = true
  | [], _, _, _, _ => rfl
  | _ :: _, [], _, h1, _ => by simp [charsLe] at h1
  | _ :: _, _ :: _, [], _, h2 => by simp [charsLe] at h2
  | a :: as, b :: bs, c :: cs, h1, h2 => by
    simp only [charsLe] at h1 h2 ⊢
    by_cases hab : a.toNat < b.toNat
    · by_cases hbc : b.toNat < c.toNat
      · rw [if_pos (by omega : a.toNat < c.toNat)]
      · by_cases hcb : c.toNat < b.toNat
        · rw [if_neg hbc, if_pos hcb] at h2; exact absurd h2 (by simp)
        · rw [if_pos (by omega : a.toNat < c.toNat)]
    · by_cases hba : b.toNat < a.toNat
      · rw [if_neg hab, if_pos hba] at h1; exact absurd h1 (by simp)
      · by_cases hbc : b.toNat < c.toNat
        · rw [if_pos (by omega : a.toNat < c.toNat)]
        · by_cases hcb : c.toNat < b.toNat
          · rw [if_neg hbc, if_pos hcb] at h2; exact absurd h2 (by simp)
          · rw [if_neg hab, if_neg hba] at h1
            rw [if_neg hbc, if_neg hcb] at h2
            rw [if_neg (by omega : ¬ a.toNat < c.toNat),
              if_neg (by omega : ¬ c.toNat < a.toNat)]
            exact charsLe_trans as bs cs h1 h2

theorem charsLe_antisymm : ∀ as bs : List Char,
    charsLe as bs = true → charsLe bs as = true → as = bs
  | [], [], _, _ => rfl
  | [], _ :: _, _, h2 => by simp [charsLe] at h2
  | _ :: _, [], h1, _ => by simp [charsLe] at h1
  | a :: as, b :: bs, h1, h2 => by
    simp only [charsLe] at h1 h2
    by_cases hab : a.toNat < b.toNat
    · rw [if_neg (by omega), if_pos hab] at h2; exact absurd h2 (by simp)
    · by_cases hba : b.toNat < a.toNat
      · rw [if_neg hab, if_pos hba] at h1; exact absurd h1 (by simp)
      · rw [if_neg hab, if_neg hba] at h1
        rw [if_neg hba, if_neg hab] at h2
        have htail := charsLe_antisymm as bs h1 h2
        have hn : a.toNat = b.toNat := by omega
        have hhead : a = b :=
          Char.eq_of_val_eq (UInt32.eq_of_toBitVec_eq (BitVec.eq_of_toNat_eq hn))
        rw [hhead, htail]

instance : IsTotal String strLeR := ⟨fun a b => charsLe_total a.data b.data⟩

instance : IsTrans String strLeR :=
  ⟨fun a b c h1 h2 => charsLe_trans a.data b.data c.data h1 h2⟩

instance : IsAntisymm String strLeR :=
  ⟨fun a b h1 h2 => String.ext (charsLe_antisymm a.data b.data h1 h2)⟩

theorem sortStrs_perm (l : List String) : (sortStrs l).Perm l :=
  List.perm_insertionSort strLeR l

theorem sortStrs_sorted (l : List String) : List.Sorted strLeR (sortStrs l) :=
  List.sorted_insertionSort strLeR l

theorem sortStrs_eq_of_perm {l l' : List String} (h : l.Perm l') :
    sortStrs l = sortStrs l' :=
  List.eq_of_perm_of_sorted ((sortStrs_perm l).trans (h.trans (sortStrs_perm l').symm))
    (sortStrs_sorted l) (sortStrs_sorted l')

theorem headD_mem {l : List String} (h : l ≠ []) (d : String) : l.headD d ∈ l := by
  cases l with
  | nil => exact absurd rfl h
  | cons x xs => exact List.mem_cons_self x xs

/-! ### The minimum-key bucket -/

theorem foldl_min_spec : ∀ (xs : List Nat) (a : Nat),
    (xs.foldl Nat.min a = a ∨ xs.foldl Nat.min a ∈ xs) ∧
      xs.foldl Nat.min a ≤ a ∧ ∀ x ∈ xs, xs.foldl Nat.min a ≤ x
  | [], a => by simp
  | x :: xs, a => by
    have ih := foldl_min_spec xs (Nat.min a x)
    simp only [List.foldl_cons]
    refine ⟨?_, ?_, ?_⟩
    · rcases ih.1 with h | h
      · have hm : Nat.min a x = a ∨ Nat.min a x = x := min_choice a x
        rcases hm with hm | hm
        · exact Or.inl (by rw [h, hm])
        · exact Or.inr (by rw [h, hm]; exact List.mem_cons_self x xs)
      · exact Or.inr (List.mem_cons_of_mem x h)
    · exact Nat.le_trans ih.2.1 (Nat.min_le_left a x)
    · intro y hy
      rcases List.mem_cons.mp hy with rfl | hy
      · exact Nat.le_trans ih.2.1 (Nat.min_le_right _ _)
      · exact ih.2.2 y hy

theorem minNat_mem : ∀ {l : List Nat}, l ≠ [] → minNat l ∈ l
  | [], h => absurd rfl h
  | x :: xs, _ => by
    rcases (foldl_min_spec xs x).1 with h | h
    · rw [show minNat (x :: xs) = xs.foldl Nat.min x from rfl, h]
      exact List.mem_cons_self x xs
    · exact List.mem_cons_of_mem x h

theorem minNat_le : ∀ {l : List Nat}, ∀ x ∈ l, minNat l ≤ x
  | [], x, hx => absurd hx (List.not_mem_nil x)
  | y :: ys, x, hx => by
    rcases List.mem_cons.mp hx with rfl | hx
    · exact (foldl_min_spec ys x).2.1
    · exact (foldl_min_spec ys y).2.2 x hx

theorem minNat_perm {l l' : List Nat} (h : l.Perm l') : minNat l = minNat l' := by
  cases l with
  | nil =>
    have : l' = [] := h.symm.eq_nil
    rw [this]
  | cons y ys =>
    have hne : (y :: ys) ≠ ([] : List Nat) := by simp
    have hne' : l' ≠ [] := by
      intro hl; rw [hl] at h; exact hne h.eq_nil
    exact Nat.le_antisymm
      (minNat_le _ (h.mem_iff.mpr (minNat_mem hne')))
      (minNat_le _ (h.mem_iff.mp (minNat_mem hne)))

theorem minValFilter_subset (key : String → Nat) (l : List String) :
    ∀ x ∈ minValFilter key l, x ∈ l :=
  fun _ hx => (List.mem_filter.mp hx).1

theorem minValFilter_ne_nil (key : String → Nat) {l : List String} (h : l ≠ []) :
    minValFilter key l ≠ [] := by
  have hmapne : l.map key ≠ [] := by
    cases l with
    | nil => exact absurd rfl h
    | cons a t => simp
  rcases List.mem_map.mp (minNat_mem hmapne) with ⟨f, hf, hkey⟩
  intro hnil
  have hmem : f ∈ minValFilter key l := List.mem_filter.mpr ⟨hf, by simp [hkey]⟩
  rw [hnil] at hmem
  exact absurd hmem (List.not_mem_nil f)

theorem minValFilter_perm (key : String → Nat) {l l' : List String} (h : l.Perm l') :
    (minValFilter key l).Perm (minValFilter key l') := by
  have hm : minNat (l.map key) = minNat (l'.map key) := minNat_perm (h.map key)
  unfold minValFilter
  rw [hm]
  exact h.filter _

/-! ### The tie-break cascade -/

theorem perm_ne_nil {l l' : List String} (h : l.Perm l') (hne : l ≠ []) : l' ≠ [] := by
  intro hl
  rw [hl] at h
  exact hne h.eq_nil

theorem sortStrs_ne_nil {l : List String} (h : l ≠ []) : sortStrs l ≠ [] :=
  perm_ne_nil (sortStrs_perm l).symm h

theorem tieBreak_mem {cands : List String} (h : cands ≠ []) : tieBreak cands ∈ cands := by
  unfold tieBreak
  have hfew := minValFilter_ne_nil numFolders h
  by_cases h1 : (minValFilter numFolders cands).length = 1
  · rw [if_pos h1]
    exact minValFilter_subset _ _ _ (headD_mem hfew "")
  · rw [if_neg h1]
    have hshort := minValFilter_ne_nil String.length hfew
    by_cases h2 : (minValFilter String.length (minValFilter numFolders cands)).length = 1
    · rw [if_pos h2]
      exact minValFilter_subset _ _ _ (minValFilter_subset _ _ _ (headD_mem hshort ""))
    · rw [if_neg h2]
      have hmem := headD_mem (sortStrs_ne_nil hshort) ""
      have hmem2 := (sortStrs_perm _).subset hmem
      exact minValFilter_subset _ _ _ (minValFilter_subset _ _ _ hmem2)

theorem singleton_of_perm_of_len {l l' : List String} (h : l.Perm l')
    (h1 : l.length = 1) : l = l' := by
  cases l with
  | nil => simp at h1
  | cons x xs =>
    cases xs with
    | nil => exact (List.perm_singleton.mp h.symm).symm
    | cons y ys => simp at h1

theorem tieBreak_perm {cands cands' : List String} (h : cands.Perm cands') :
    tieBreak cands = tieBreak cands' := by
  unfold tieBreak
  have hfew : (minValFilter numFolders cands).Perm (minValFilter numFolders cands') :=
    minValFilter_perm numFolders h
  have hlenfew := hfew.length_eq
  by_cases h1 : (minValFilter numFolders cands).length = 1
  · rw [if_pos h1, if_pos (by omega : (minValFilter numFolders cands').length = 1)]
    rw [singleton_of_perm_of_len hfew h1]
  · rw [if_neg h1, if_neg (by omega : ¬ (minValFilter numFolders cands').length = 1)]
    have hshort : (minValFilter String.length (minValFilter numFolders cands)).Perm
        (minValFilter String.length (minValFilter numFolders cands')) :=
      minValFilter_perm String.length hfew
    have hlenshort := hshort.length_eq
    by_cases h2 : (minValFilter String.length (minValFilter numFolders cands)).length = 1
    · rw [if_pos h2, if_pos (by omega :
        (minValFilter String.length (minValFilter numFolders cands')).length = 1)]
      rw [singleton_of_perm_of_len hshort h2]
    · rw [if_neg h2, if_neg (by omega :
        ¬ (minValFilter String.length (minValFilter numFolders cands')).length = 1)]
      rw [sortStrs_eq_of_perm hshort]

/-! ### The preferred-directory scan -/

theorem firstMatchFiles_subset (files : List String) :
    ∀ ds : List String, ∀ f ∈ firstMatchFiles files ds, f ∈ files
  | [], f, hf => absurd hf (List.not_mem_nil f)
  | d :: ds, f, hf => by
    simp only [firstMatchFiles] at hf
    by_cases he : (files.filter (fun x => startswith d x)).isEmpty
    · rw [if_pos he] at hf
      exact firstMatchFiles_subset files ds f hf
    · rw [if_neg he] at hf
      exact (List.mem_filter.mp hf).1

theorem firstMatchFiles_perm {files files' : List String} (h : files.Perm files') :
    ∀ ds : List String, (firstMatchFiles files ds).Perm (firstMatchFiles files' ds)
  | [] => List.Perm.refl _
  | d :: ds => by
    simp only [firstMatchFiles]
    have hf : (files.filter (fun f => startswith d f)).Perm
        (files'.filter (fun f => startswith d f)) := h.filter _
    have hlen := hf.length_eq
    by_cases he : (files.filter (fun f => startswith d f)).isEmpty
    · have he' : (files'.filter (fun f => startswith d f)).isEmpty := by
        rw [List.isEmpty_iff] at he ⊢
        rw [he] at hlen
        exact List.eq_nil_of_length_eq_zero hlen.symm
      rw [if_pos he, if_pos he']
      exact firstMatchFiles_perm h ds
    · have he' : ¬ (files'.filter (fun f => startswith d f)).isEmpty := by
        rw [List.isEmpty_iff] at he ⊢
        intro hnil
        rw [hnil] at hlen
        exact he (List.eq_nil_of_length_eq_zero hlen)
      rw [if_neg he, if_neg he']
      exact hf

theorem firstMatchFiles_spec (files : List String) : ∀ ds : List String,
    (firstMatchFiles files ds = [] →
      ∀ d ∈ ds, files.filter (fun f => startswith d f) = []) ∧
    (firstMatchFiles files ds ≠ [] → ∃ pre d post, ds = pre ++ d :: post ∧
      (∀ d2 ∈ pre, files.filter (fun f => startswith d2 f) = []) ∧
      firstMatchFiles files ds = files.filter (fun f => startswith d f))
  | [] =>
    ⟨fun _ d hd => absurd hd (List.not_mem_nil d), fun hne => absurd rfl hne⟩
  | d :: ds => by
    have ih := firstMatchFiles_spec files ds
    simp only [firstMatchFiles]
    by_cases he : (files.filter (fun f => startswith d f)).isEmpty
    · rw [if_pos he]
      have hdnil : files.filter (fun f => startswith d f) = [] :=
        List.isEmpty_iff.mp he
      refine ⟨?_, ?_⟩
      · intro hnil d2 hd2
        rcases List.mem_cons.mp hd2 with rfl | hd2
        · exact hdnil
        · exact ih.1 hnil d2 hd2
      · intro hne
        rcases ih.2 hne with ⟨pre, d', post, hds, hpre, heq⟩
        refine ⟨d :: pre, d', post, by rw [hds]; rfl, ?_, heq⟩
        intro d2 hd2
        rcases List.mem_cons.mp hd2 with rfl | hd2
        · exact hdnil
        · exact hpre d2 hd2
    · rw [if_neg he]
      refine ⟨?_, ?_⟩
      · intro hnil
        exact absurd (List.isEmpty_iff.mpr hnil) he
      · intro _
        exact ⟨[], d, ds, rfl, fun d2 hd2 => absurd hd2 (List.not_mem_nil d2), rfl⟩

/-! ### The selector: totality, membership, permutation invariance -/

theorem prefFiles_subset (files : List String) (preferred : Option (List String)) :
    ∀ f ∈ prefFiles files preferred, f ∈ files := by
  cases preferred with
  | none => intro f hf; exact absurd hf (List.not_mem_nil f)
  | some ds => exact firstMatchFiles_subset files ds

theorem prefFiles_perm {files files' : List String} (h : files.Perm files')
    (preferred : Option (List String)) :
    (prefFiles files preferred).Perm (prefFiles files' preferred) := by
  cases preferred with
  | none => exact List.Perm.refl _
  | some ds => exact firstMatchFiles_perm h ds

theorem selCands_ne_nil {files : List String} (h : files ≠ [])
    (preferred : Option (List String)) : selCands files preferred ≠ [] := by
  unfold selCands
  by_cases he : (prefFiles files preferred).isEmpty
  · rw [if_pos he]; exact h
  · rw [if_neg he]
    intro hnil
    exact he (List.isEmpty_iff.mpr hnil)

theorem selCands_subset (files : List String) (preferred : Option (List String)) :
    ∀ f ∈ selCands files preferred, f ∈ files := by
  unfold selCands
  by_cases he : (prefFiles files preferred).isEmpty
  · rw [if_pos he]; intro f hf; exact hf
  · rw [if_neg he]; exact prefFiles_subset files preferred

theorem selCands_perm {files files' : List String} (h : files.Perm files')
    (preferred : Option (List String)) :
    (selCands files preferred).Perm (selCands files' preferred) := by
  unfold selCands
  have hp := prefFiles_perm h preferred
  have hlen := hp.length_eq
  by_cases he : (prefFiles files preferred).isEmpty
  · have he' : (prefFiles files' preferred).isEmpty := by
      rw [List.isEmpty_iff] at he ⊢
      rw [he] at hlen
      exact List.eq_nil_of_length_eq_zero hlen.symm
    rw [if_pos he, if_pos he']
    exact h
  · have he' : ¬ (prefFiles files' preferred).isEmpty := by
      rw [List.isEmpty_iff] at he ⊢
      intro hnil
      rw [hnil] at hlen
      exact he (List.eq_nil_of_length_eq_zero hlen)
    rw [if_neg he, if_neg he']
    exact hp

theorem select_original_mem {files : List String} (preferred : Option (List String))
    (h : files ≠ []) : (select_original files preferred).1 ∈ files := by
  unfold select_original
  by_cases h1 : (prefFiles files preferred).length = 1
  · rw [if_pos h1]
    have hne : prefFiles files preferred ≠ [] := by
      intro hnil; rw [hnil] at h1; simp at h1
    exact prefFiles_subset files preferred _ (headD_mem hne "")
  · rw [if_neg h1]
    exact selCands_subset files preferred _ (tieBreak_mem (selCands_ne_nil h preferred))

theorem select_original_perm {files files' : List String}
    (preferred : Option (List String)) (h : files.Perm files') :
    (select_original files preferred).1 = (select_original files' preferred).1 := by
  unfold select_original
  have hp := prefFiles_perm h preferred
  have hlen := hp.length_eq
  by_cases h1 : (prefFiles files preferred).length = 1
  · rw [if_pos h1, if_pos (by omega : (prefFiles files' preferred).length = 1)]
    rw [singleton_of_perm_of_len hp h1]
  · rw [if_neg h1, if_neg (by omega : ¬ (prefFiles files' preferred).length = 1)]
    exact tieBreak_perm (selCands_perm h preferred)

/-! ### Batch writes: executemany, commit and rollback -/

theorem executemanyRows_snd (fails : FileData → Bool) (t : Nat) :
    ∀ (ds : List FileData) (db : List FileRecord),
      (executemanyRows fails t db ds).2 = ds.all (fun d => !fails d)
  | [], db => by simp [executemanyRows]
  | d :: ds, db => by
    cases hfd : fails d with
    | true => simp [executemanyRows, hfd]
    | false =>
      simp only [executemanyRows, hfd, List.all_cons, Bool.not_false, Bool.true_and,
        if_neg (by simp : ¬ (false = true))]
      exact executemanyRows_snd fails t ds (replaceRow t db d)

theorem executemanyRows_fst_all (fails : FileData → Bool) (t : Nat) :
    ∀ (ds : List FileData) (db : List FileRecord),
      ds.all (fun d => !fails d) = true →
      (executemanyRows fails t db ds).1 =
        ds.foldl (fun acc d => replaceRow t acc d) db
  | [], _, _ => rfl
  | d :: ds, db, h => by
    simp only [List.all_cons, Bool.and_eq_true, Bool.not_eq_true'] at h
    simp only [executemanyRows, h.1, List.foldl_cons,
      if_neg (by simp : ¬ (false = true))]
    exact executemanyRows_fst_all fails t ds (replaceRow t db d) h.2

theorem insert_data_batch_write (fails : FileData → Bool) (t : Nat)
    (db : List FileRecord) (ds : List FileData) :
    insert_data_batch fails t db ds =
      if ds.all (fun d => !fails d) = true
      then ds.foldl (fun acc d => replaceRow t acc d) db else db := by
  have h2 := executemanyRows_snd fails t ds db
  simp only [insert_data_batch]
  rw [h2]
  by_cases hall : ds.all (fun d => !fails d) = true
  · rw [if_pos hall, if_pos hall]
    exact executemanyRows_fst_all fails t ds db hall
  · rw [if_neg hall, if_neg hall]

theorem all_noFail (ds : List FileData) : ds.all (fun d => !noFail d) = true := by
  simp [noFail]

theorem insert_data_batch_noFail (t : Nat) (db : List FileRecord) (ds : List FileData) :
    insert_data_batch noFail t db ds = ds.foldl (fun acc d => replaceRow t acc d) db := by
  rw [insert_data_batch_write, if_pos (all_noFail ds)]

/-! ### Path uniqueness is preserved by every write -/

theorem map_path_updateFirst (t : Nat) (d : FileData) : ∀ db : List FileRecord,
    (updateFirst t d db).map (fun r => r.path) = db.map (fun r => r.path)
  | [] => rfl
  | r :: rs => by
    unfold updateFirst
    by_cases hr : r.path = d.path
    · rw [if_pos hr]; simp
    · rw [if_neg hr]; simp [map_path_updateFirst t d rs]

theorem insert_data_nodup {db : List FileRecord} (t : Nat) (d : FileData)
    (h : pathsNodup db) : pathsNodup (insert_data t db d) := by
  unfold insert_data
  cases hf : db.find? (fun r => r.path = d.path) with
  | some r =>
    unfold pathsNodup
    rw [map_path_updateFirst]
    exact h
  | none =>
    unfold pathsNodup at h ⊢
    rw [List.map_append, List.nodup_append]
    refine ⟨h, by simp, ?_⟩
    intro a ha hb
    simp [mkRecord] at hb
    subst hb
    rcases List.mem_map.mp ha with ⟨r, hr, hpath⟩
    have hnone := List.find?_eq_none.mp hf r hr
    simp at hnone
    exact hnone hpath

theorem replaceRow_nodup {db : List FileRecord} (t : Nat) (d : FileData)
    (h : pathsNodup db) : pathsNodup (replaceRow t db d) := by
  unfold pathsNodup at h ⊢
  unfold replaceRow
  rw [List.map_append, List.nodup_append]
  refine ⟨?_, by simp, ?_⟩
  · exact List.Nodup.sublist (List.Sublist.map _ (List.filter_sublist db)) h
  · intro a ha hb
    simp [mkRecord] at hb
    subst hb
    rcases List.mem_map.mp ha with ⟨r, hr, hpath⟩
    have hne := (List.mem_filter.mp hr).2
    simp at hne
    exact hne hpath

theorem foldl_replaceRow_nodup (t : Nat) : ∀ (ds : List FileData)
    {db : List FileRecord}, pathsNodup db →
    pathsNodup (ds.foldl (fun acc d => replaceRow t acc d) db)
  | [], _, h => h
  | d :: ds, db, h => by
    rw [List.foldl_cons]
    exact foldl_replaceRow_nodup t ds (replaceRow_nodup t d h)

theorem insert_data_batch_nodup {db : List FileRecord} (fails : FileData → Bool)
    (t : Nat) (ds : List FileData) (h : pathsNodup db) :
    pathsNodup (insert_data_batch fails t db ds) := by
  rw [insert_data_batch_write]
  by_cases hall : ds.all (fun d => !fails d) = true
  · rw [if_pos hall]
    exact foldl_replaceRow_nodup t ds h
  · rw [if_neg hall]
    exact h

theorem removeByPath_nodup {db : List FileRecord} (p : String)
    (h : pathsNodup db) : pathsNodup (removeByPath db p) :=
  List.Nodup.sublist (List.Sublist.map _ (List.filter_sublist db)) h

theorem applyOp_nodup {db : List FileRecord} (op : Op) (h : pathsNodup db) :
    pathsNodup (applyOp db op) := by
  cases op with
  | one t d => exact insert_data_nodup t d h
  | batch t fails ds => exact insert_data_batch_nodup fails t ds h
  | remove p => exact removeByPath_nodup p h

theorem foldl_applyOp_nodup : ∀ (ops : List Op) {db : List FileRecord},
    pathsNodup db → pathsNodup (ops.foldl applyOp db)
  | [], _, h => h
  | op :: ops, db, h => by
    rw [List.foldl_cons]
    exact foldl_applyOp_nodup ops (applyOp_nodup op h)

/-! ### Lookup after writes -/

theorem find?_filter_ne : ∀ (db : List FileRecord) (q p : String), p ≠ q →
    (db.filter (fun r => ¬ r.path = q)).find? (fun r => r.path = p) =
      db.find? (fun r => r.path = p)
  | [], _, _, _ => rfl
  | r :: rs, q, p, hpq => by
    by_cases hr : r.path = q
    · have h1 : ¬ r.path = p := fun hh => hpq (hh.symm.trans hr)
      rw [List.filter_cons_of_neg (by simp [hr])]
      rw [List.find?_cons_of_neg _ (by simp [h1])]
      exact find?_filter_ne rs q p hpq
    · rw [List.filter_cons_of_pos (by simp [hr])]
      by_cases hp : r.path = p
      · rw [List.find?_cons_of_pos _ (by simp [hp]), List.find?_cons_of_pos _ (by simp [hp])]
      · rw [List.find?_cons_of_neg _ (by simp [hp]), List.find?_cons_of_neg _ (by simp [hp])]
        exact find?_filter_ne rs q p hpq

theorem lookup_replaceRow (t : Nat) (d : FileData) (p : String) (db : List FileRecord) :
    lookup (replaceRow t db d) p =
      if p = d.path then some (mkRecord t d) else lookup db p := by
  unfold lookup replaceRow
  rw [List.find?_append]
  by_cases hp : p = d.path
  · rw [if_pos hp]
    have h1 : (db.filter (fun r => ¬ r.path = d.path)).find? (fun r => r.path = p) = none := by
      rw [List.find?_eq_none]
      intro r hr
      have hne := (List.mem_filter.mp hr).2
      simp at hne
      simp [hne, hp]
    rw [h1]
    have h2 : ([mkRecord t d].find? (fun r => r.path = p)) = some (mkRecord t d) :=
      List.find?_cons_of_pos _ (by simp [mkRecord, hp])
    rw [h2]
    rfl
  · rw [if_neg hp]
    rw [find?_filter_ne db d.path p hp]
    have h2 : ([mkRecord t d].find? (fun r => r.path = p)) = none := by
      rw [List.find?_eq_none]
      intro r hr
      simp at hr
      subst hr
      simp [mkRecord]
      exact fun hh => hp hh.symm
    rw [h2]
    cases db.find? (fun r => r.path = p) <;> rfl

theorem lookup_foldl_replaceRow (t : Nat) : ∀ (ds : List FileData)
    (db : List FileRecord) (p : String),
    lookup (ds.foldl (fun acc d => replaceRow t acc d) db) p =
      match ds.reverse.find? (fun d => d.path = p) with
      | some d => some (mkRecord t d)
      | none => lookup db p
  | [], db, p => by simp
  | d :: ds, db, p => by
    rw [List.foldl_cons]
    rw [lookup_foldl_replaceRow t ds (replaceRow t db d) p]
    rw [List.reverse_cons, List.find?_append]
    cases hfind : ds.reverse.find? (fun d2 => d2.path = p) with
    | some d2 => rfl
    | none =>
      by_cases hp : d.path = p
      · have h2 : ([d].find? (fun d2 => d2.path = p)) = some d :=
          List.find?_cons_of_pos _ (by simp [hp])
        rw [h2]
        rw [lookup_replaceRow]
        rw [if_pos hp.symm]
        rfl
      · have h2 : ([d].find? (fun d2 => d2.path = p)) = none := by
          rw [List.find?_eq_none]
          intro r hr
          simp at hr
          subst hr
          simp [hp]
        rw [h2]
        rw [lookup_replaceRow]
        rw [if_neg (fun hh => hp hh.symm)]
        rfl

theorem main_run_eq (t : Nat) : ∀ (bs : List (List FileData)) (db : List FileRecord),
    main_run t db bs = bs.flatten.foldl (fun acc d => replaceRow t acc d) db
  | [], _ => rfl
  | b :: bs, db => by
    unfold main_run
    rw [List.foldl_cons, List.flatten_cons, List.foldl_append]
    by_cases hb : b.isEmpty
    · have hbnil : b = [] := List.isEmpty_iff.mp hb
      rw [if_pos hb, hbnil]
      exact main_run_eq t bs db
    · rw [if_neg hb, insert_data_batch_noFail]
      exact main_run_eq t bs _

/-! ### The duplicate grouper -/

theorem dedupFirst_mem : ∀ (l : List String) (a : String), a ∈ dedupFirst l ↔ a ∈ l
  | [], a => by simp [dedupFirst]
  | h :: t, a => by
    simp only [dedupFirst, List.mem_cons]
    constructor
    · rintro (rfl | ha)
      · exact Or.inl rfl
      · exact Or.inr ((dedupFirst_mem t a).mp (List.mem_filter.mp ha).1)
    · rintro (rfl | ha)
      · exact Or.inl rfl
      · by_cases hah : a = h
        · exact Or.inl hah
        · exact Or.inr (List.mem_filter.mpr ⟨(dedupFirst_mem t a).mpr ha, by simp [hah]⟩)

theorem dedupFirst_nodup : ∀ l : List String, (dedupFirst l).Nodup
  | [] => List.nodup_nil
  | h :: t => by
    simp only [dedupFirst]
    rw [List.nodup_cons]
    refine ⟨?_, List.Nodup.filter _ (dedupFirst_nodup t)⟩
    intro hmem
    have hne := (List.mem_filter.mp hmem).2
    simp at hne

theorem filter_eq_length_of_nodup : ∀ {l : List String}, l.Nodup → ∀ h : String,
    (l.filter (fun x => x = h)).length = if h ∈ l then 1 else 0
  | [], _, h => by simp
  | x :: xs, hnd, h => by
    rw [List.nodup_cons] at hnd
    by_cases hx : x = h
    · subst hx
      rw [List.filter_cons_of_pos (by simp)]
      simp only [List.length_cons]
      rw [filter_eq_length_of_nodup hnd.2 x]
      rw [if_neg hnd.1, if_pos (List.mem_cons_self x xs)]
    · rw [List.filter_cons_of_neg (by simp [hx])]
      rw [filter_eq_length_of_nodup hnd.2 h]
      by_cases hmem : h ∈ xs
      · rw [if_pos hmem, if_pos (List.mem_cons_of_mem x hmem)]
      · rw [if_neg hmem, if_neg ?_]
        intro hcon
        rcases List.mem_cons.mp hcon with rfl | hcon
        · exact hx rfl
        · exact hmem hcon

theorem filter_map_group_length (f : String → Group) (hf : ∀ x, (f x).hash = x) :
    ∀ (l : List String) (h : String),
      ((l.map f).filter (fun g => g.hash = h)).length =
        (l.filter (fun x => x = h)).length
  | [], _ => rfl
  | x :: xs, h => by
    rw [List.map_cons]
    by_cases hx : x = h
    · rw [List.filter_cons_of_pos (by simp [hf, hx]),
        List.filter_cons_of_pos (by simp [hx])]
      simp only [List.length_cons]
      rw [filter_map_group_length f hf xs h]
    · rw [List.filter_cons_of_neg (by simp [hf, hx]),
        List.filter_cons_of_neg (by simp [hx])]
      exact filter_map_group_length f hf xs h

theorem filter_dup_filter (s : List FileRecord) (h : String) (l : List FileRecord) :
    (l.filter
        (fun r => 2 ≤ (s.filter (fun r2 => r2.hash = r.hash)).length)).filter
        (fun r => r.hash = h) =
      if 2 ≤ (s.filter (fun r2 => r2.hash = h)).length
      then l.filter (fun r => r.hash = h) else [] := by
  rw [List.filter_filter]
  by_cases hc : 2 ≤ (s.filter (fun r2 => r2.hash = h)).length
  · rw [if_pos hc]
    apply List.filter_congr
    intro r _
    by_cases hr : r.hash = h
    · simp [hr, hc]
    · simp [hr]
  · rw [if_neg hc]
    rw [List.filter_eq_nil_iff]
    intro r _
    by_cases hr : r.hash = h
    · simp [hr, hc]
    · simp [hr]

theorem dupRows_filter_hash (db : List FileRecord) (w : Option String) (h : String) :
    (dupRows db w).filter (fun r => r.hash = h) =
      if 2 ≤ ((scope db w).filter (fun r => r.hash = h)).length
      then (scope db w).filter (fun r => r.hash = h) else [] :=
  filter_dup_filter (scope db w) h (scope db w)

theorem mem_hashesOf (db : List FileRecord) (w : Option String) (h : String) :
    h ∈ hashesOf (dupRows db w) ↔
      2 ≤ ((scope db w).filter (fun r => r.hash = h)).length := by
  unfold hashesOf
  rw [dedupFirst_mem, List.mem_map]
  constructor
  · rintro ⟨r, hr, rfl⟩
    have h2 := (List.mem_filter.mp hr).2
    simpa using h2
  · intro hc
    have hne : (scope db w).filter (fun r => r.hash = h) ≠ [] := by
      intro hnil; rw [hnil] at hc; simp at hc
    rcases List.exists_mem_of_ne_nil _ hne with ⟨r, hr⟩
    have hmem := List.mem_filter.mp hr
    have hrh : r.hash = h := by simpa using hmem.2
    refine ⟨r, List.mem_filter.mpr ⟨hmem.1, ?_⟩, hrh⟩
    simp only [hrh, decide_eq_true_eq]
    exact hc

theorem groupFiles_eq_rowsOf (db : List FileRecord) (w : Option String) (h : String)
    (hc : 2 ≤ ((scope db w).filter (fun r => r.hash = h)).length) :
    groupFiles db w h = rowsOf db w h := by
  unfold groupFiles rowsOf
  rw [dupRows_filter_hash, if_pos hc]

theorem length_rowsOf (db : List FileRecord) (w : Option String) (h : String) :
    (rowsOf db w h).length = ((scope db w).filter (fun r => r.hash = h)).length := by
  unfold rowsOf
  rw [List.length_map]

theorem select_original_snd (files : List String) (preferred : Option (List String)) :
    (select_original files preferred).2 =
      files.erase (select_original files preferred).1 := by
  unfold select_original
  by_cases h1 : (prefFiles files preferred).length = 1
  · rw [if_pos h1]
  · rw [if_neg h1]

/-! ### Lookup after an in-place update -/

theorem lookup_updateFirst_self (t : Nat) (d : FileData) :
    ∀ db : List FileRecord, lookup db d.path ≠ none →
    lookup (updateFirst t d db) d.path = some (mkRecord t d)
  | [], h => absurd rfl h
  | r :: rs, h => by
    unfold updateFirst
    by_cases hr : r.path = d.path
    · rw [if_pos hr]
      unfold lookup
      rw [List.find?_cons_of_pos _ (by simp [hr])]
      simp [mkRecord, hr]
    · rw [if_neg hr]
      unfold lookup
      rw [List.find?_cons_of_neg _ (by simp [hr])]
      apply lookup_updateFirst_self t d rs
      unfold lookup at h
      rw [List.find?_cons_of_neg _ (by simp [hr])] at h
      exact h

theorem lookup_updateFirst_ne (t : Nat) (d : FileData) (p : String)
    (hp : ¬ p = d.path) : ∀ db : List FileRecord,
    lookup (updateFirst t d db) p = lookup db p
  | [] => rfl
  | r :: rs => by
    unfold updateFirst
    by_cases hr : r.path = d.path
    · rw [if_pos hr]
      unfold lookup
      have hnotp : ¬ r.path = p := fun hh => hp (hh.symm.trans hr)
      rw [List.find?_cons_of_neg _ (by simp; exact hnotp)]
      rw [List.find?_cons_of_neg _ (by simp [hnotp])]
    · rw [if_neg hr]
      unfold lookup
      by_cases hrp : r.path = p
      · rw [List.find?_cons_of_pos _ (by simp [hrp]),
          List.find?_cons_of_pos _ (by simp [hrp])]
      · rw [List.find?_cons_of_neg _ (by simp [hrp]),
          List.find?_cons_of_neg _ (by simp [hrp])]
        exact lookup_updateFirst_ne t d p hp rs

/-! ### Claim theorems -/

/-- C1: the claim states that on cancellation after K of N batches, every
record of the K flushed batches stays persisted and the results already
aggregated for the in-flight batch are flushed before exit. The code keeps
the first half: nothing deletes flushed rows. It breaks the second half:
`signal_handler` flushes the module-global `processed_data`, but `main`
aggregates results into the batch-local `batch_processed_data` and never
writes to `processed_data`, so the handler always flushes an empty list.
This theorem evaluates the model at the failing input: cancellation after
batch 1 of 2, with batch 2's result already aggregated — the batch-1 record
survives, the aggregated in-flight record is absent. -/
theorem C1_inflight_results_lost :
    main_cancelled 7 [] [[⟨"hA", "/a", 1, 0⟩], [⟨"hB", "/b", 1, 0⟩]] 1
        [⟨"hB", "/b", 1, 0⟩] =
      [⟨"hA", "/a", 1, 0, 7⟩] ∧
    lookup (main_cancelled 7 [] [[⟨"hA", "/a", 1, 0⟩], [⟨"hB", "/b", 1, 0⟩]] 1
        [⟨"hB", "/b", 1, 0⟩]) "/b" = none := by decide

/-- C2: the claim states that when no preferred directory matches any group
member, the emitted group carries `noMatchingOriginal = true` and the
remaining tie-break steps run on the full member list. The code performs the
fallback but hard-codes `no_matching_original: False` (line 373) — the
consumers' branches for the true case (lines 483, 527, 614) are unreachable.
Evaluated at the claim's own P7 scenario: neither member is under
`/archive`, the original is chosen from the full list by the tie-break
cascade (lexicographic here), yet the flag is `false`. -/
theorem C2_no_match_flag_stays_false :
    get_duplicates [⟨"h1", "/a/f.txt", 1, 0, 0⟩, ⟨"h1", "/b/f.txt", 1, 0, 0⟩]
        (some ["/archive"]) none =
      [⟨"h1", "/a/f.txt", ["/b/f.txt"], false⟩] := by decide

/-- C3 counterexample: the claim says a member matches a preferred directory
exactly when it is located directly in, or nested under, that directory. The
code tests `file.startswith(directory)`, a raw string prefix: with preferred
directory `/archive`, the member `/archives/f.txt` — not under `/archive` —
is selected as the only "match" and returned as the original, while the
claim's matching criterion would fall through to the tie-break over the full
list and yield `/b/f.txt`. -/
theorem C3_counterexample :
    (select_original ["/archives/f.txt", "/b/f.txt"] (some ["/archive"])).1 =
      "/archives/f.txt" ∧
    underDir "/archive" "/archives/f.txt" = false ∧
    (select_original_claim ["/archives/f.txt", "/b/f.txt"] (some ["/archive"])).1 =
      "/b/f.txt" := by decide

/-- C3 amended: `select_original` takes the first directory in the list for
which at least one member's path starts with the directory string (raw
string prefix, not a path-boundary check), restricts the candidates for the
remaining steps to exactly the members with that prefix, and directories
before it have no prefix-matching member; when no directory has a matching
member the scan yields the empty match list. In particular, with preferred
`["/archive", "/staging"]` and group `{"/staging/f.txt", "/tmp/f.txt"}` the
original is `/staging/f.txt`. -/
theorem C3_first_match_scan (files ds : List String) :
    (firstMatchFiles files ds = [] →
      ∀ d ∈ ds, files.filter (fun f => startswith d f) = []) ∧
    (firstMatchFiles files ds ≠ [] → ∃ pre d post, ds = pre ++ d :: post ∧
      (∀ d2 ∈ pre, files.filter (fun f => startswith d2 f) = []) ∧
      firstMatchFiles files ds = files.filter (fun f => startswith d f)) ∧
    (firstMatchFiles files ds ≠ [] →
      (select_original files (some ds)).1 ∈ firstMatchFiles files ds) ∧
    select_original ["/staging/f.txt", "/tmp/f.txt"] (some ["/archive", "/staging"]) =
      ("/staging/f.txt", ["/tmp/f.txt"]) := by
  refine ⟨(firstMatchFiles_spec files ds).1, (firstMatchFiles_spec files ds).2,
    ?_, by decide⟩
  intro hne
  unfold select_original
  by_cases h1 : (prefFiles files (some ds)).length = 1
  · rw [if_pos h1]
    exact headD_mem hne ""
  · rw [if_neg h1]
    have hse : selCands files (some ds) = firstMatchFiles files ds := by
      unfold selCands
      have hpf : prefFiles files (some ds) = firstMatchFiles files ds := rfl
      rw [hpf]
      rw [if_neg (fun hemp => hne (List.isEmpty_iff.mp hemp))]
    rw [← hse]
    exact tieBreak_mem (by rw [hse]; exact hne)

/-- C3 witness: the amended scan theorem applied at the P6 inputs, with its
non-empty-match hypothesis discharged by evaluation. -/
theorem C3_first_match_scan_witness :
    ((select_original ["/staging/f.txt", "/tmp/f.txt"]
        (some ["/archive", "/staging"])).1 ∈
      firstMatchFiles ["/staging/f.txt", "/tmp/f.txt"] ["/archive", "/staging"]) ∧
    select_original ["/staging/f.txt", "/tmp/f.txt"] (some ["/archive", "/staging"]) =
      ("/staging/f.txt", ["/tmp/f.txt"]) :=
  ⟨(C3_first_match_scan ["/staging/f.txt", "/tmp/f.txt"]
      ["/archive", "/staging"]).2.2.1 (by decide),
    (C3_first_match_scan ["/staging/f.txt", "/tmp/f.txt"]
      ["/archive", "/staging"]).2.2.2⟩

/-- C4: for every non-empty group and every policy, `select_original`
returns exactly one original, the original is a member of the group, and two
calls on lists holding the same members in any order return the same
original (the embedding is a total function, so termination and
single-valuedness hold by construction; order-independence holds at every
stage, the lexicographic tie-break included). -/
theorem C4_selector_total_deterministic (files files2 : List String)
    (preferred : Option (List String)) (hne : files ≠ [])
    (hperm : files.Perm files2) :
    (select_original files preferred).1 ∈ files ∧
    (select_original files preferred).1 = (select_original files2 preferred).1 :=
  ⟨select_original_mem preferred hne, select_original_perm preferred hperm⟩

/-- C4 witness: the selector theorem at the P5 group in two orders. -/
theorem C4_selector_witness :
    (select_original ["/a/b/x.txt", "/a/x.txt"] none).1 ∈
      ["/a/b/x.txt", "/a/x.txt"] ∧
    (select_original ["/a/b/x.txt", "/a/x.txt"] none).1 =
      (select_original ["/a/x.txt", "/a/b/x.txt"] none).1 :=
  C4_selector_total_deterministic ["/a/b/x.txt", "/a/x.txt"]
    ["/a/x.txt", "/a/b/x.txt"] none (by decide) (by decide)

/-- C5 counterexample: the claim says `select_original` leaves the caller's
list unchanged. It does not: every return path executes
`files.remove(original)` on the argument, so after the call the caller's
list — which is also the returned duplicates list — is missing the
original. -/
theorem C5_counterexample :
    (select_original ["/a/x.txt", "/a/y.txt"] none).2 ≠
      ["/a/x.txt", "/a/y.txt"] := by decide

/-- C5 amended: `select_original` mutates the caller's `files` list in
place, removing the first occurrence of the selected original, and returns
that same list as the duplicates: the post-call list equals the input minus
the original, so its length drops by exactly one (the preferred-directory
argument is not modified). -/
theorem C5_mutates_caller_list (files : List String)
    (preferred : Option (List String)) (hne : files ≠ []) :
    (select_original files preferred).2 =
      files.erase (select_original files preferred).1 ∧
    ((select_original files preferred).2).length + 1 = files.length := by
  refine ⟨select_original_snd files preferred, ?_⟩
  rw [select_original_snd files preferred]
  rw [List.length_erase_of_mem (select_original_mem preferred hne)]
  have hlen : files.length ≠ 0 := by
    intro h0
    exact hne (List.eq_nil_of_length_eq_zero h0)
  omega

/-- C5 witness: the mutation theorem at a concrete two-element group. -/
theorem C5_mutates_caller_list_witness :
    (select_original ["/a/x.txt", "/a/y.txt"] none).2 =
      ["/a/x.txt", "/a/y.txt"].erase (select_original ["/a/x.txt", "/a/y.txt"] none).1 ∧
    ((select_original ["/a/x.txt", "/a/y.txt"] none).2).length + 1 =
      (["/a/x.txt", "/a/y.txt"] : List String).length :=
  C5_mutates_caller_list ["/a/x.txt", "/a/y.txt"] none (by decide)

/-- C6 counterexample: the claim says that under a subtree restriction a
group is emitted only when at least two qualifying duplicate paths lie
within that subtree. The query instead filters with `path LIKE ?` bound to
the unescaped pattern `<dir>%`, which for a wildcard-free directory is a
string prefix: with restriction `/a`, the sibling-directory paths `/ab/x`
and `/ab/y` — neither within the subtree `/a` — still form an emitted
group. -/
theorem C6_counterexample :
    get_duplicates [⟨"h1", "/ab/x", 1, 0, 0⟩, ⟨"h1", "/ab/y", 1, 0, 0⟩]
        none (some "/a") =
      [⟨"h1", "/ab/x", ["/ab/y"], false⟩] ∧
    underDir "/a" "/ab/x" = false ∧ underDir "/a" "/ab/y" = false := by decide

/-- C6 amended: for every index state, `get_duplicates` emits exactly one
group per fingerprint held by at least two rows of the queried scope and no
group for a fingerprint held by fewer; the group's original and duplicates
together are exactly that fingerprint's scoped path list. The scope is the
whole table, or — under a restriction — the rows whose path matches the
normalized directory followed by `%` under SQLite `LIKE` semantics:
comparison is ASCII-case-insensitive, `_` inside the directory matches any
single character and `%` any character sequence, and there is no
path-separator boundary check, so sibling paths sharing the directory's
name as a prefix also qualify. -/
theorem C6_grouping (db : List FileRecord) (dirs : Option (List String))
    (w : Option String) (h : String) :
    ((get_duplicates db dirs w).filter (fun g => g.hash = h)).length =
      (if 2 ≤ (rowsOf db w h).length then 1 else 0) ∧
    ∀ g ∈ get_duplicates db dirs w, g.hash = h →
      (g.original :: g.duplicates).Perm (rowsOf db w h) := by
  constructor
  · unfold get_duplicates
    rw [filter_map_group_length (groupForHash db dirs w) (fun x => rfl)]
    rw [filter_eq_length_of_nodup
      (show (hashesOf (dupRows db w)).Nodup from dedupFirst_nodup _) h]
    rw [length_rowsOf]
    by_cases hc : 2 ≤ ((scope db w).filter (fun r => r.hash = h)).length
    · rw [if_pos hc, if_pos ((mem_hashesOf db w h).mpr hc)]
    · rw [if_neg hc, if_neg (fun hmem => hc ((mem_hashesOf db w h).mp hmem))]
  · intro g hg hgh
    rcases List.mem_map.mp hg with ⟨h2, hh2, hgeq⟩
    have hhash : h2 = h := by rw [← hgh, ← hgeq]; rfl
    subst hhash
    subst hgeq
    have hc := (mem_hashesOf db w h2).mp hh2
    have hfiles : groupFiles db w h2 = rowsOf db w h2 :=
      groupFiles_eq_rowsOf db w h2 hc
    show ((select_original (groupFiles db w h2) dirs).1 ::
        (select_original (groupFiles db w h2) dirs).2).Perm (rowsOf db w h2)
    rw [select_original_snd]
    have hne : groupFiles db w h2 ≠ [] := by
      rw [hfiles]
      intro hnil
      have hlen := length_rowsOf db w h2
      rw [hnil] at hlen
      simp at hlen
      omega
    exact (List.perm_cons_erase (select_original_mem dirs hne)).symm.trans
      (by rw [hfiles])

/-- C6 witness: the grouping theorem instantiated at the sibling-directory
database of the counterexample, under the wildcard-free restriction `/a`
and under the restriction `/_b`, whose underscore matches the `a` of `/ab`
per SQLite `LIKE`; the evaluated conjuncts exhibit the wildcard and the
ASCII-case-insensitive behavior of the scope. -/
theorem C6_grouping_witness :
    (((get_duplicates [⟨"h1", "/ab/x", 1, 0, 0⟩, ⟨"h1", "/ab/y", 1, 0, 0⟩]
        none (some "/a")).filter (fun g => g.hash = "h1")).length =
      (if 2 ≤ (rowsOf [⟨"h1", "/ab/x", 1, 0, 0⟩, ⟨"h1", "/ab/y", 1, 0, 0⟩]
        (some "/a") "h1").length then 1 else 0)) ∧
    (((get_duplicates [⟨"h1", "/ab/x", 1, 0, 0⟩, ⟨"h1", "/ab/y", 1, 0, 0⟩]
        none (some "/_b")).filter (fun g => g.hash = "h1")).length =
      (if 2 ≤ (rowsOf [⟨"h1", "/ab/x", 1, 0, 0⟩, ⟨"h1", "/ab/y", 1, 0, 0⟩]
        (some "/_b") "h1").length then 1 else 0)) ∧
    likeMatch "/_b" "/ab/x" = true ∧ likeMatch "/ab" "/AB/x" = true :=
  ⟨(C6_grouping [⟨"h1", "/ab/x", 1, 0, 0⟩, ⟨"h1", "/ab/y", 1, 0, 0⟩]
      none (some "/a") "h1").1,
    (C6_grouping [⟨"h1", "/ab/x", 1, 0, 0⟩, ⟨"h1", "/ab/y", 1, 0, 0⟩]
      none (some "/_b") "h1").1,
    by decide, by decide⟩

/-- C7 counterexample: the claim says a record whose own write succeeds is
persisted even when another record of the batch fails. In the code the
whole batch runs in one implicit transaction through `executemany`; the
error handler only logs, and closing the connection rolls the transaction
back: here the `/good` record's write raised no error, yet after the batch
call — whose `/bad` record fails — the table is still empty. -/
theorem C7_counterexample :
    insert_data_batch (fun d => d.path == "/bad") 9 []
        [⟨"h1", "/good", 1, 0⟩, ⟨"h2", "/bad", 1, 0⟩] = [] ∧
    (fun d : FileData => d.path == "/bad") ⟨"h1", "/good", 1, 0⟩ = false := by
  decide

/-- C7 amended: a batch flush is all-or-nothing. When every record's write
succeeds, the batch is applied in order as `INSERT OR REPLACE` rows and
committed; when any record's write fails, the transaction is never
committed, so no record of the batch — later ones are not attempted,
earlier ones are rolled back — is persisted and the table is left as it was
before the call. -/
theorem C7_batch_all_or_nothing (fails : FileData → Bool) (t : Nat)
    (db : List FileRecord) (ds : List FileData) :
    ((∀ d ∈ ds, fails d = false) →
      insert_data_batch fails t db ds =
        ds.foldl (fun acc d => replaceRow t acc d) db) ∧
    ((∃ d ∈ ds, fails d = true) → insert_data_batch fails t db ds = db) := by
  constructor
  · intro hall
    have hb : ds.all (fun d => !fails d) = true := by
      rw [List.all_eq_true]
      intro d hd
      rw [hall d hd]
      rfl
    rw [insert_data_batch_write, if_pos hb]
  · rintro ⟨d, hd, hfd⟩
    have hb : ¬ ds.all (fun d => !fails d) = true := by
      rw [List.all_eq_true]
      intro hall
      have hcon := hall d hd
      rw [hfd] at hcon
      simp at hcon
    rw [insert_data_batch_write, if_neg hb]

/-- C7 witness: the all-or-nothing theorem applied on both sides — an
error-free singleton batch is fully applied, and the counterexample batch
with one failing record leaves the table unchanged. -/
theorem C7_batch_all_or_nothing_witness :
    insert_data_batch noFail 3 [] [⟨"h1", "/good", 1, 0⟩] =
      [(⟨"h1", "/good", 1, 0⟩ : FileData)].foldl
        (fun acc d => replaceRow 3 acc d) [] ∧
    insert_data_batch (fun d => d.path == "/bad") 9 []
        [⟨"h1", "/good", 1, 0⟩, ⟨"h2", "/bad", 1, 0⟩] = [] :=
  ⟨(C7_batch_all_or_nothing noFail 3 [] [⟨"h1", "/good", 1, 0⟩]).1
      (by intro d _; rfl),
    (C7_batch_all_or_nothing (fun d => d.path == "/bad") 9 []
        [⟨"h1", "/good", 1, 0⟩, ⟨"h2", "/bad", 1, 0⟩]).2
      ⟨⟨"h2", "/bad", 1, 0⟩, by decide, by decide⟩⟩

/-- C8: starting from the freshly created table, after any sequence of
single upserts, batch upserts (with any failure pattern) and by-path
deletions, no two rows of the index share a path: the single upsert updates
the existing row in place or appends a fresh path, the batch upsert's
`INSERT OR REPLACE` deletes any conflicting row before inserting, and
deletion only removes rows. -/
theorem C8_path_uniqueness (ops : List Op) : pathsNodup (ops.foldl applyOp []) :=
  foldl_applyOp_nodup ops (by simp [pathsNodup])

/-- C9: scanning the same unchanged tree twice is idempotent. After the
second scan every looked-up record agrees with the record left by the first
scan on hash, path, size and last-modified; every scanned path's record
carries the second scan's `lastChecked`; and a single upsert likewise always
refreshes `lastChecked` to the write time. -/
theorem C9_rescan_idempotent (t1 t2 : Nat) (db0 : List FileRecord)
    (bs : List (List FileData)) (p : String) :
    Option.map content (lookup (main_run t2 (main_run t1 db0 bs) bs) p) =
      Option.map content (lookup (main_run t1 db0 bs) p) ∧
    (p ∈ bs.flatten.map (fun d => d.path) →
      ∃ r, lookup (main_run t2 (main_run t1 db0 bs) bs) p = some r ∧
        r.lastChecked = t2) ∧
    (∀ t db d, ∃ r, lookup (insert_data t db d) d.path = some r ∧
      r.lastChecked = t) := by
  have hform2 : lookup (main_run t2 (main_run t1 db0 bs) bs) p =
      match bs.flatten.reverse.find? (fun d => d.path = p) with
      | some d => some (mkRecord t2 d)
      | none => lookup (main_run t1 db0 bs) p := by
    rw [main_run_eq t2, lookup_foldl_replaceRow]
  refine ⟨?_, ?_, ?_⟩
  · rw [hform2]
    cases hfind : bs.flatten.reverse.find? (fun d => d.path = p) with
    | none => rfl
    | some d =>
      rw [main_run_eq t1, lookup_foldl_replaceRow, hfind]
      rfl
  · intro hp
    rw [hform2]
    rcases List.mem_map.mp hp with ⟨d, hd, hdp⟩
    have hsome : (bs.flatten.reverse.find? (fun d2 => d2.path = p)).isSome := by
      rw [List.find?_isSome]
      exact ⟨d, List.mem_reverse.mpr hd, by simp [hdp]⟩
    rcases Option.isSome_iff_exists.mp hsome with ⟨d2, hd2⟩
    rw [hd2]
    exact ⟨mkRecord t2 d2, rfl, rfl⟩
  · intro t db d
    unfold insert_data
    cases hf : db.find? (fun r => r.path = d.path) with
    | some r =>
      have hnn : lookup db d.path ≠ none := by
        unfold lookup
        rw [hf]
        simp
      rw [lookup_updateFirst_self t d db hnn]
      exact ⟨mkRecord t d, rfl, rfl⟩
    | none =>
      unfold lookup
      rw [List.find?_append, hf]
      have h2 : ([mkRecord t d].find? (fun r => r.path = d.path)) =
          some (mkRecord t d) :=
        List.find?_cons_of_pos _ (by simp [mkRecord])
      rw [h2]
      exact ⟨mkRecord t d, rfl, rfl⟩

/-- C9 witness: the idempotence theorem at a one-batch scan, with the
scanned-path hypothesis discharged by evaluation. -/
theorem C9_rescan_idempotent_witness :
    ∃ r, lookup (main_run 2 (main_run 1 [] [[⟨"h", "/a", 5, 3⟩]])
        [[⟨"h", "/a", 5, 3⟩]]) "/a" = some r ∧ r.lastChecked = 2 :=
  (C9_rescan_idempotent 1 2 [] [[⟨"h", "/a", 5, 3⟩]] "/a").2.1 (by decide)

/-- C10: writing one record through `insert_data` and through
`insert_data_batch` with the singleton batch (with the same write time and
no write error) leave tables that agree on the looked-up FileRecord of every
path, although the former updates the conflicting row in place and the
latter deletes it and appends a replacement. -/
theorem C10_upsert_paths_agree (t : Nat) (db : List FileRecord) (d : FileData)
    (p : String) :
    lookup (insert_data t db d) p = lookup (insert_data_batch noFail t db [d]) p := by
  have hbatch : insert_data_batch noFail t db [d] = replaceRow t db d := by
    rw [insert_data_batch_noFail]
    rfl
  rw [hbatch, lookup_replaceRow]
  unfold insert_data
  cases hf : db.find? (fun r => r.path = d.path) with
  | none =>
    by_cases hp : p = d.path
    · rw [if_pos hp]
      unfold lookup
      rw [List.find?_append]
      have h1 : db.find? (fun r => r.path = p) = none := by
        rw [hp]
        exact hf
      rw [h1]
      have h2 : ([mkRecord t d].find? (fun r => r.path = p)) =
          some (mkRecord t d) :=
        List.find?_cons_of_pos _ (by simp [mkRecord, hp])
      rw [h2]
      rfl
    · rw [if_neg hp]
      unfold lookup
      rw [List.find?_append]
      have h2 : ([mkRecord t d].find? (fun r => r.path = p)) = none := by
        rw [List.find?_eq_none]
        intro r hr
        simp at hr
        subst hr
        simp [mkRecord]
        exact fun hh => hp hh.symm
      rw [h2]
      cases db.find? (fun r => r.path = p) <;> rfl
  | some r =>
    by_cases hp : p = d.path
    · rw [if_pos hp]
      subst hp
      have hnn : lookup db d.path ≠ none := by
        unfold lookup
        rw [hf]
        simp
      exact lookup_updateFirst_self t d db hnn
    · rw [if_neg hp]
      exact lookup_updateFirst_ne t d p hp db

end FindDupes
